import Mathlib

/-!
Verification development for the dotenv loader of this repository
(src/src/env_loader.c).  The C functions are shallowly embedded as
executable Lean functions over lists of characters; the process
environment (getenv/setenv) is embedded as an explicit store of type
String → Option String passed through the operations.
-/

/-- Character class of C isspace in the default locale:
space, tab, newline, vertical tab, form feed, carriage return. -/
def isSpaceC (c : Char) : Bool :=
  (c == ' ') || (c == '\t') || (c == '\n') || (c == '\x0b') || (c == '\x0c') || (c == '\r')

/-- Skip leading whitespace, as the leading loops of trim_inplace,
parse_value and trim_string_copy do. -/
def ltrimC (l : List Char) : List Char := l.dropWhile isSpaceC

/-- Remove trailing whitespace, as the end-pointer loops of trim_inplace,
parse_value and trim_string_copy do. -/
def rtrimC (l : List Char) : List Char := (l.reverse.dropWhile isSpaceC).reverse

/-- trim_inplace (and trim_string_copy): leading whitespace is skipped
first, then trailing whitespace is removed. -/
def trimInplace (l : List Char) : List Char := rtrimC (ltrimC l)

/-- The process-wide variable store (getenv / setenv view). -/
abbrev Env := String → Option String

/-- getenv as used by expand_vars: an absent name reads as "". -/
def envGet (e : Env) (n : String) : List Char := ((e n).getD "").data

/-- set_env_var / setenv with overwrite. -/
def setEnv (e : Env) (k v : String) : Env := fun n => if n = k then some v else e n

/-- The empty store. -/
def emptyEnv : Env := fun _ => none

/-- The scan of expand_vars for the next closing brace: splits the input
at the first rbrace, or returns none when no rbrace exists. -/
def scanName : List Char → Option (List Char × List Char)
  | [] => none
  | c :: rest =>
    if c = '}' then some ([], rest)
    else
      match scanName rest with
      | some (n, r) => some (c :: n, r)
      | none => none

/-- Body of expand_vars, fuelled so that the recursion is structural.
With fuel at least the input length the fuel never runs out. -/
def expandF (e : Env) : Nat → List Char → List Char
  | _, [] => []
  | 0, l => l
  | f + 1, c :: rest =>
    if c = '$' ∧ rest.head? = some '{' then
      match scanName rest.tail with
      | some (n, r) => envGet e (String.mk n) ++ expandF e f r
      | none => c :: expandF e f rest
    else c :: expandF e f rest

/-- expand_vars: single left-to-right pass replacing dollar-brace
references by the store value of the referenced name. -/
def expand_vars (e : Env) (l : List Char) : List Char := expandF e l.length l

/-- Names read from the store by one expand_vars pass, mirroring the
fuelled scan of expandF. -/
def refNamesF : Nat → List Char → List String
  | _, [] => []
  | 0, _ => []
  | f + 1, c :: rest =>
    if c = '$' ∧ rest.head? = some '{' then
      match scanName rest.tail with
      | some (n, r) => String.mk n :: refNamesF f r
      | none => refNamesF f rest
    else refNamesF f rest

/-- Names referenced by a value during expansion. -/
def refNamesOf (l : List Char) : List String := refNamesF l.length l

/-- Quoted branch of parse_value: accumulate until the closing quote,
end of input, or the output-index ceiling LINE_MAX - 1 = 4095; a
backslash-character pair contributes the character alone. -/
def quotedScan (q : Char) : List Char → Nat → List Char
  | [], _ => []
  | c :: rest, idx =>
    if 4095 ≤ idx then []
    else if c = q then []
    else if c = '\\' then
      match rest with
      | [] => [c]
      | d :: rest' => d :: quotedScan q rest' (idx + 1)
    else c :: quotedScan q rest (idx + 1)

/-- Unquoted branch of parse_value: copy until a hash or end of input,
subject to the same output ceiling. -/
def unquotedCapture : List Char → Nat → List Char
  | [], _ => []
  | c :: rest, idx =>
    if 4095 ≤ idx then []
    else if c = '#' then []
    else c :: unquotedCapture rest (idx + 1)

/-- parse_value: skip leading whitespace; a leading double or single
quote selects the quoted scan, otherwise the capture runs to the first
hash and the span is trimmed (trailing first, then leading). -/
def parse_value (raw : List Char) : List Char :=
  match raw.dropWhile isSpaceC with
  | [] => []
  | c :: rest =>
    if c = '"' ∨ c = '\'' then quotedScan c rest 0
    else ltrimC (rtrimC (unquotedCapture (c :: rest) 0))

/-- Spec-side counterpart of the quoted scan (spec section 4.1, step 2):
the accumulation up to the next unescaped quote, each
backslash-character pair replaced by the character alone; no ceiling.
Stated to be compared against quotedScan. -/
def quotedSpec (q : Char) : List Char → List Char
  | [] => []
  | c :: rest =>
    if c = q then []
    else if c = '\\' then
      match rest with
      | [] => [c]
      | d :: rest' => d :: quotedSpec q rest'
    else c :: quotedSpec q rest

/-- strchr on the equals sign: split the line at the first equals sign,
or none when the line has no equals sign. -/
def splitAtEq (l : List Char) : Option (List Char × List Char) :=
  if '=' ∈ l then some (l.takeWhile (fun c => !(c == '=')), (l.dropWhile (fun c => !(c == '='))).tail)
  else none

/-- The defensive strip of trailing carriage returns and newlines that
load_dotenv applies to the raw value. -/
def stripNL (l : List Char) : List Char :=
  (l.reverse.dropWhile (fun c => (c == '\n') || (c == '\r'))).reverse

/-- Per-line selection of load_dotenv: trim, skip blank and comment
lines, strip an optional export prefix worth seven characters, require
an equals sign and a non-empty trimmed key; yields the trimmed key and
the raw value. -/
def processLine (line : List Char) : Option (String × List Char) :=
  let s := trimInplace line
  if s = [] then none
  else if s.head? = some '#' then none
  else
    let s2 := if s.take 7 = "export ".data then s.drop 7 else s
    match splitAtEq s2 with
    | none => none
    | some (k, v) =>
      if trimInplace k = [] then none
      else some (String.mk (trimInplace k), stripNL v)

/-- Outcome of the file-reading phase of load_dotenv: a fatal status
when an allocation failed, the store reached, and the count of
variables set. -/
structure FileScan where
  fatal : Option Int
  env : Env
  varsSet : Nat

/-- The file-reading loop of load_dotenv.  pOk and eOk are allocation
oracles for the parse phase and the expansion phase: a false answer is
a failed malloc and aborts with the matching fatal code. -/
def runLines (pOk eOk : List Char → Bool) : List (List Char) → Env → Nat → FileScan
  | [], e, v => ⟨none, e, v⟩
  | line :: rest, e, v =>
    match processLine line with
    | none => runLines pOk eOk rest e v
    | some (k, raw) =>
      if pOk raw then
        if eOk (parse_value raw) then
          runLines pOk eOk rest
            (setEnv e k (String.mk (expand_vars e (parse_value raw)))) (v + 1)
        else ⟨some (-3), e, v⟩
      else ⟨some (-2), e, v⟩

/-- The prompt loop of interactive_create_entries.  The accumulated
count, the lines appended to the file, and the store are threaded;
wOk is the I/O oracle for the per-line fprintf, a false answer makes
the collector return the negative sentinel at once. -/
def collectLoop (wOk : List Char → Bool) : List (List Char) → Nat → List (List Char) → Env → Int × List (List Char) × Env
  | [], added, app, e => ((added : Int), app, e)
  | line :: rest, added, app, e =>
    let t := trimInplace line
    if t = [] then ((added : Int), app, e)
    else
      match splitAtEq t with
      | none => collectLoop wOk rest added app e
      | some (k, v) =>
        if trimInplace k = [] then collectLoop wOk rest added app e
        else if wOk t then
          collectLoop wOk rest (added + 1) (app ++ [t]) (setEnv e (String.mk (trimInplace k)) (String.mk v))
        else (-1, app, e)

/-- interactive_create_entries: openOk is the fopen oracle (a false
answer is a failed open and returns the negative sentinel); inputs are
the lines read from standard input, an exhausted list being
end-of-input. -/
def interactive_create_entries (openOk : Bool) (wOk : List Char → Bool)
    (inputs : List (List Char)) (e : Env) : Int × List (List Char) × Env :=
  if openOk then collectLoop wOk inputs 0 [] e else (-1, [], e)

/-- Observable outcome of one load_dotenv call: the returned status,
the store afterwards, the spec-level count of entries set, the count
set by the file phase alone, whether the confirmation prompt was
shown, whether the Interactive Collector ran, and the lines it
appended to the file. -/
structure LoadResult where
  status : Int
  env : Env
  entriesSet : Nat
  fileVars : Nat
  prompted : Bool
  collectorRan : Bool
  appended : List (List Char)

/-- The file phase of load_dotenv: a missing file degrades to zero
variables set and no fatal status. -/
def fileScan (pOk eOk : List Char → Bool) (file : Option (List (List Char))) (e : Env) : FileScan :=
  match file with
  | none => ⟨none, e, 0⟩
  | some lines => runLines pOk eOk lines e 0

/-- The test load_dotenv applies to the answer of the confirmation
prompt: the first character must be y or Y; a failed read declines. -/
def isYesAnswer : Option (List Char) → Bool
  | some (c :: _) => (c == 'y') || (c == 'Y')
  | _ => false

/-- load_dotenv.  file is the content of the named file when it exists,
tty whether standard input is an interactive terminal, answer the line
read at the confirmation prompt, inputs the collector's input lines;
pOk, eOk, openOk and wOk are the allocation and I/O oracles. -/
def load_dotenv (file : Option (List (List Char))) (tty : Bool) (answer : Option (List Char))
    (inputs : List (List Char)) (pOk eOk : List Char → Bool) (openOk : Bool)
    (wOk : List Char → Bool) (e0 : Env) : LoadResult :=
  let sc := fileScan pOk eOk file e0
  match sc.fatal with
  | some c => ⟨c, sc.env, sc.varsSet, sc.varsSet, false, false, []⟩
  | none =>
    if sc.varsSet = 0 ∧ tty = true then
      if isYesAnswer answer then
        let r := interactive_create_entries openOk wOk inputs sc.env
        if r.1 < 0 then ⟨-4, r.2.2, sc.varsSet, sc.varsSet, true, true, r.2.1⟩
        else ⟨0, r.2.2, r.1.toNat, sc.varsSet, true, true, r.2.1⟩
      else ⟨0, sc.env, sc.varsSet, sc.varsSet, true, false, []⟩
    else ⟨0, sc.env, sc.varsSet, sc.varsSet, false, false, []⟩

/-- The strtok loop of get_env, fuelled so that the recursion is
structural: skip leading delimiter characters, emit the maximal run of
non-delimiter characters, continue after it. -/
def strtokF (p : Char → Bool) : Nat → List Char → List (List Char)
  | 0, _ => []
  | f + 1, l =>
    match l.dropWhile p with
    | [] => []
    | c :: rest =>
      (c :: rest.takeWhile (fun d => !(p d))) :: strtokF p f (rest.dropWhile (fun d => !(p d)))

/-- All strtok tokens of a list for a delimiter-character class. -/
def strtok_all (p : Char → Bool) (l : List Char) : List (List Char) := strtokF p l.length l

/-- Spec-side partition (spec section 4.5): the value is partitioned on
every occurrence of a delimiter character, keeping empty partitions.
Stated to be compared against strtok_all. -/
def splitEvery (p : Char → Bool) : List Char → List (List Char)
  | [] => [[]]
  | c :: rest =>
    if p c then [] :: splitEvery p rest
    else
      match splitEvery p rest with
      | [] => [[c]]
      | h :: t => (c :: h) :: t

/-- Spec-side token pipeline: partition everywhere, trim every
partition, drop partitions that became empty. -/
def specTokens (delim : String) (v : List Char) : List (List Char) :=
  ((splitEvery (fun c => delim.data.contains c) v).map trimInplace).filter (fun t => !t.isEmpty)

/-- get_env.  The returned pair models the C array including its
terminating null pointer, together with the reported count. -/
def get_env (e : Env) (key delim : String) : Option (List (Option String) × Nat) :=
  match e key with
  | none => none
  | some v =>
    if v.data = [] then none
    else if delim.data = [] then
      some ([some (String.mk (trimInplace v.data)), none], 1)
    else
      let toks := ((strtok_all (fun c => delim.data.contains c) v.data).map trimInplace).filter (fun t => !t.isEmpty)
      some (toks.map (fun t => some (String.mk t)) ++ [none], toks.length)

/-- Keys set by the processed lines of a file. -/
def procKeys (lines : List (List Char)) : List String :=
  lines.filterMap (fun l => (processLine l).map Prod.fst)

/-- A file is self-reference-free for a key set K when every processed
line has its key inside K and its parsed value references no name
inside K. -/
def linesOKb (K : List String) (lines : List (List Char)) : Bool :=
  lines.all (fun l =>
    match processLine l with
    | none => true
    | some (k, raw) =>
      K.contains k && (refNamesOf (parse_value raw)).all (fun n => !(K.contains n)))

theorem scanName_append {n : List Char} (h : '}' ∉ n) (r : List Char) :
    scanName (n ++ '}' :: r) = some (n, r) := by
  induction n with
  | nil => simp [scanName]
  | cons c cs ih =>
    have hc : c ≠ '}' := fun hc => h (hc ▸ List.mem_cons_self c cs)
    have hcs : '}' ∉ cs := fun hm => h (List.mem_cons_of_mem c hm)
    simp [scanName, hc, ih hcs]

theorem scanName_eq_none {l : List Char} (h : '}' ∉ l) : scanName l = none := by
  induction l with
  | nil => rfl
  | cons c cs ih =>
    have hc : c ≠ '}' := fun hc => h (hc ▸ List.mem_cons_self c cs)
    have hcs : '}' ∉ cs := fun hm => h (List.mem_cons_of_mem c hm)
    simp [scanName, hc, ih hcs]

theorem scanName_length {l n r : List Char} (h : scanName l = some (n, r)) :
    l.length = n.length + 1 + r.length := by
  induction l generalizing n with
  | nil => simp [scanName] at h
  | cons c cs ih =>
    by_cases hc : c = '}'
    · simp [scanName, hc] at h
      obtain ⟨h1, h2⟩ := h
      subst h1; subst h2
      simp
      omega
    · simp [scanName, hc] at h
      match hcs : scanName cs with
      | none => rw [hcs] at h; simp at h
      | some (n', r') =>
        rw [hcs] at h
        simp at h
        obtain ⟨h1, h2⟩ := h
        subst h1; subst h2
        have := ih hcs
        simp [this]
        omega

theorem expandF_fuel (e : Env) :
    ∀ f1 f2 l, l.length ≤ f1 → l.length ≤ f2 → expandF e f1 l = expandF e f2 l := by
  intro f1
  induction f1 with
  | zero =>
    intro f2 l h1 _
    have : l = [] := List.length_eq_zero.mp (Nat.le_zero.mp h1)
    subst this
    cases f2 <;> rfl
  | succ f ih =>
    intro f2 l h1 h2
    cases l with
    | nil => cases f2 <;> rfl
    | cons c rest =>
      cases f2 with
      | zero => simp at h2
      | succ f2' =>
        simp only [expandF]
        by_cases hc : c = '$' ∧ rest.head? = some '{'
        · rw [if_pos hc, if_pos hc]
          match hs : scanName rest.tail with
          | some (n, r) =>
            have hlen := scanName_length hs
            have hrt : rest.tail.length ≤ rest.length := by
              cases rest <;> simp
            have hr1 : r.length ≤ f := by simp at h1; omega
            have hr2 : r.length ≤ f2' := by simp at h2; omega
            show envGet e (String.mk n) ++ expandF e f r =
              envGet e (String.mk n) ++ expandF e f2' r
            rw [ih f2' r hr1 hr2]
          | none =>
            have hr1 : rest.length ≤ f := by simp at h1; omega
            have hr2 : rest.length ≤ f2' := by simp at h2; omega
            show c :: expandF e f rest = c :: expandF e f2' rest
            rw [ih f2' rest hr1 hr2]
        · rw [if_neg hc, if_neg hc]
          have hr1 : rest.length ≤ f := by simp at h1; omega
          have hr2 : rest.length ≤ f2' := by simp at h2; omega
          rw [ih f2' rest hr1 hr2]

theorem expand_vars_subst (e : Env) {n : List Char} (h : '}' ∉ n) (r : List Char) :
    expand_vars e ('$' :: '{' :: (n ++ '}' :: r)) =
      envGet e (String.mk n) ++ expand_vars e r := by
  unfold expand_vars
  simp only [List.length_cons, expandF]
  rw [if_pos (by simp)]
  simp only [List.tail_cons]
  rw [scanName_append h r]
  have : expandF e (n ++ '}' :: r).length.succ r = expandF e r.length r := by
    apply expandF_fuel
    · simp; omega
    · exact Nat.le_refl _
  exact congrArg _ this

theorem expandF_no_close (e : Env) :
    ∀ f l, l.length ≤ f → '}' ∉ l → expandF e f l = l := by
  intro f
  induction f with
  | zero =>
    intro l h1 _
    have : l = [] := List.length_eq_zero.mp (Nat.le_zero.mp h1)
    subst this; rfl
  | succ f ih =>
    intro l h1 hm
    cases l with
    | nil => rfl
    | cons c rest =>
      have hrm : '}' ∉ rest := fun h => hm (List.mem_cons_of_mem c h)
      have hrl : rest.length ≤ f := by simp at h1; omega
      simp only [expandF]
      by_cases hc : c = '$' ∧ rest.head? = some '{'
      · rw [if_pos hc]
        have htm : '}' ∉ rest.tail := by
          intro h
          exact hrm (List.mem_of_mem_tail h)
        rw [scanName_eq_none htm, ih rest hrl hrm]
      · rw [if_neg hc, ih rest hrl hrm]

theorem expand_vars_no_close (e : Env) {l : List Char} (h : '}' ∉ l) :
    expand_vars e l = l :=
  expandF_no_close e l.length l (Nat.le_refl _) h

theorem expandF_ext :
    ∀ (f : Nat) (l : List Char) (e1 e2 : Env),
      (∀ n, n ∈ refNamesF f l → e1 n = e2 n) → expandF e1 f l = expandF e2 f l := by
  intro f
  induction f with
  | zero => intro l e1 e2 _; cases l <;> rfl
  | succ f ih =>
    intro l e1 e2 h
    cases l with
    | nil => rfl
    | cons c rest =>
      simp only [expandF]
      by_cases hc : c = '$' ∧ rest.head? = some '{'
      · rw [if_pos hc, if_pos hc]
        simp only [refNamesF, if_pos hc] at h
        match hs : scanName rest.tail with
        | some (n, r) =>
          simp only [hs] at h
          show envGet e1 (String.mk n) ++ expandF e1 f r =
            envGet e2 (String.mk n) ++ expandF e2 f r
          have hv : e1 (String.mk n) = e2 (String.mk n) :=
            h (String.mk n) (List.mem_cons_self _ _)
          rw [show envGet e1 (String.mk n) = envGet e2 (String.mk n) from by
                unfold envGet; rw [hv]]
          rw [ih r e1 e2 (fun m hm => h m (List.mem_cons_of_mem _ hm))]
        | none =>
          simp only [hs] at h
          show c :: expandF e1 f rest = c :: expandF e2 f rest
          rw [ih rest e1 e2 h]
      · rw [if_neg hc, if_neg hc]
        simp only [refNamesF, if_neg hc] at h
        show c :: expandF e1 f rest = c :: expandF e2 f rest
        rw [ih rest e1 e2 h]

theorem expand_vars_ext {l : List Char} {e1 e2 : Env}
    (h : ∀ n, n ∈ refNamesOf l → e1 n = e2 n) :
    expand_vars e1 l = expand_vars e2 l :=
  expandF_ext l.length l e1 e2 h

theorem quotedScan_take_aux (q : Char) :
    ∀ (N : Nat) (body : List Char), body.length ≤ N → ∀ idx, idx ≤ 4095 →
      quotedScan q body idx = (quotedSpec q body).take (4095 - idx) := by
  intro N
  induction N with
  | zero =>
    intro body hb idx _
    have hnil : body = [] := List.length_eq_zero.mp (Nat.le_zero.mp hb)
    subst hnil
    simp [quotedScan, quotedSpec]
  | succ N ih =>
    intro body hb idx hidx
    cases body with
    | nil => simp [quotedScan, quotedSpec]
    | cons c rest =>
      by_cases hceil : 4095 ≤ idx
      · have h5 : idx = 4095 := Nat.le_antisymm hidx hceil
        subst h5
        unfold quotedScan
        rw [if_pos (le_refl 4095)]
        simp
      · have hlt : idx < 4095 := Nat.lt_of_not_le hceil
        unfold quotedScan quotedSpec
        rw [if_neg hceil]
        by_cases hq : c = q
        · rw [if_pos hq, if_pos hq]
          simp
        · rw [if_neg hq, if_neg hq]
          by_cases hb2 : c = '\\'
          · rw [if_pos hb2, if_pos hb2]
            cases rest with
            | nil =>
              show [c] = List.take (4095 - idx) [c]
              rw [List.take_of_length_le (by simp; omega)]
            | cons d rest' =>
              show d :: quotedScan q rest' (idx + 1) =
                List.take (4095 - idx) (d :: quotedSpec q rest')
              rw [ih rest' (by simp at hb; omega) (idx + 1) (by omega)]
              have h2 : (4095 - idx) = (4095 - (idx + 1)) + 1 := by omega
              rw [h2, List.take_succ_cons]
          · rw [if_neg hb2, if_neg hb2]
            rw [ih rest (by simp at hb; omega) (idx + 1) (by omega)]
            have h2 : (4095 - idx) = (4095 - (idx + 1)) + 1 := by omega
            rw [h2, List.take_succ_cons]

theorem quotedScan_take (q : Char) (body : List Char) (idx : Nat) (hidx : idx ≤ 4095) :
    quotedScan q body idx = (quotedSpec q body).take (4095 - idx) :=
  quotedScan_take_aux q body.length body (Nat.le_refl _) idx hidx

theorem unquotedCapture_take :
    ∀ (l : List Char) (idx : Nat), idx ≤ 4095 →
      unquotedCapture l idx = (l.takeWhile (fun c => !(c == '#'))).take (4095 - idx) := by
  intro l
  induction l with
  | nil => intro idx _; simp [unquotedCapture]
  | cons c rest ih =>
    intro idx hidx
    by_cases hceil : 4095 ≤ idx
    · have h5 : idx = 4095 := Nat.le_antisymm hidx hceil
      subst h5
      unfold unquotedCapture
      rw [if_pos (le_refl 4095)]
      simp
    · unfold unquotedCapture
      rw [if_neg hceil]
      by_cases hh : c = '#'
      · rw [if_pos hh]
        have hb : (c == '#') = true := by simp [hh]
        simp [List.takeWhile_cons, hb]
      · rw [if_neg hh]
        have hb : (c == '#') = false := by simp [hh]
        rw [ih (idx + 1) (by omega)]
        have h2 : (4095 - idx) = (4095 - (idx + 1)) + 1 := by omega
        rw [h2]
        simp [List.takeWhile_cons, hb]

theorem isSpaceC_hash {c : Char} (h : isSpaceC c = true) : (c == '#') = false := by
  have h6 : c = ' ' ∨ c = '\t' ∨ c = '\n' ∨ c = '\x0b' ∨ c = '\x0c' ∨ c = '\r' := by
    simpa [isSpaceC, or_assoc] using h
  rcases h6 with h5 | h5 | h5 | h5 | h5 | h5 <;> subst h5 <;> decide

theorem trim_ws_front {w x : List Char} (h : ∀ c ∈ w, isSpaceC c = true) :
    ltrimC (rtrimC (w ++ x)) = ltrimC (rtrimC x) := by
  unfold rtrimC ltrimC
  rw [List.reverse_append, List.dropWhile_append]
  by_cases he : (x.reverse.dropWhile isSpaceC).isEmpty
  · rw [if_pos he]
    have hw : w.reverse.dropWhile isSpaceC = [] :=
      List.dropWhile_eq_nil_iff.mpr (fun c hc => h c (List.mem_reverse.mp hc))
    have hx : x.reverse.dropWhile isSpaceC = [] := by
      rwa [List.isEmpty_iff] at he
    rw [hw, hx]
  · rw [if_neg he]
    rw [List.reverse_append, List.reverse_reverse]
    rw [List.dropWhile_append_of_pos (fun c hc => h c hc)]

theorem parse_value_quoted {raw body : List Char} {q : Char}
    (hd : raw.dropWhile isSpaceC = q :: body) (hq : q = '"' ∨ q = '\'') :
    parse_value raw = (quotedSpec q body).take 4095 := by
  simp only [parse_value, hd]
  rw [if_pos hq]
  have h0 := quotedScan_take q body 0 (by omega)
  simpa using h0

theorem parse_value_unquoted {raw : List Char}
    (hlen : raw.length ≤ 4095)
    (h1 : (raw.dropWhile isSpaceC).head? ≠ some '"')
    (h2 : (raw.dropWhile isSpaceC).head? ≠ some '\'') :
    parse_value raw = ltrimC (rtrimC (raw.takeWhile (fun c => !(c == '#')))) := by
  cases hd : raw.dropWhile isSpaceC with
  | nil =>
    simp only [parse_value, hd]
    have hall : ∀ c ∈ raw, isSpaceC c = true := List.dropWhile_eq_nil_iff.mp hd
    have htw : raw.takeWhile (fun c => !(c == '#')) = raw :=
      List.takeWhile_eq_self_iff.mpr (fun c hc => by
        simp [isSpaceC_hash (hall c hc)])
    rw [htw]
    have hrt : rtrimC raw = [] := by
      unfold rtrimC
      rw [List.dropWhile_eq_nil_iff.mpr (fun c hc => hall c (List.mem_reverse.mp hc))]
      rfl
    rw [hrt]
    rfl
  | cons c rest =>
    have hc : ¬(c = '"' ∨ c = '\'') := by
      intro hor
      cases hor with
      | inl h5 => exact h1 (by rw [hd, h5]; rfl)
      | inr h5 => exact h2 (by rw [hd, h5]; rfl)
    simp only [parse_value, hd]
    rw [if_neg hc]
    rw [unquotedCapture_take (c :: rest) 0 (by omega)]
    have hsub : (c :: rest).length ≤ raw.length := by
      have h5 := List.Sublist.length_le (List.dropWhile_sublist (l := raw) isSpaceC)
      rwa [hd] at h5
    have hlen2 : ((c :: rest).takeWhile (fun c => !(c == '#'))).length ≤ 4095 - 0 := by
      have h5 := List.Sublist.length_le
        (List.takeWhile_sublist (l := c :: rest) (fun c => !(c == '#')))
      omega
    rw [List.take_of_length_le hlen2]
    have hsplit : raw = raw.takeWhile isSpaceC ++ (c :: rest) := by
      conv_lhs => rw [← List.takeWhile_append_dropWhile (p := isSpaceC) (l := raw)]
      rw [hd]
    have hx : raw.takeWhile (fun c => !(c == '#')) =
        raw.takeWhile isSpaceC ++ ((c :: rest).takeWhile (fun c => !(c == '#'))) := by
      conv_lhs => rw [hsplit]
      exact List.takeWhile_append_of_pos (fun d hdw => by
        simp [isSpaceC_hash (List.mem_takeWhile_imp hdw)])
    rw [hx, trim_ws_front (fun d hdw => List.mem_takeWhile_imp hdw)]

theorem splitEvery_ne_nil (p : Char → Bool) (l : List Char) : splitEvery p l ≠ [] := by
  cases l with
  | nil => simp [splitEvery]
  | cons c rest =>
    simp only [splitEvery]
    split
    · simp
    · split <;> simp

theorem splitEvery_filter_all {p : Char → Bool} {l : List Char}
    (h : ∀ c ∈ l, p c = true) :
    (splitEvery p l).filter (fun t => !t.isEmpty) = [] := by
  induction l with
  | nil => rfl
  | cons c rest ih =>
    have hc : p c = true := h c (List.mem_cons_self _ _)
    simp only [splitEvery, hc, if_true]
    rw [List.filter_cons]
    simp only [List.isEmpty_nil, Bool.not_true]
    exact ih (fun d hd => h d (List.mem_cons_of_mem _ hd))

theorem splitEvery_ws_filter {p : Char → Bool} :
    ∀ {w : List Char}, (∀ c ∈ w, p c = true) → ∀ m,
      (splitEvery p (w ++ m)).filter (fun t => !t.isEmpty) =
        (splitEvery p m).filter (fun t => !t.isEmpty) := by
  intro w
  induction w with
  | nil => intro _ m; rfl
  | cons x w' ih =>
    intro h m
    have hx : p x = true := h x (List.mem_cons_self _ _)
    simp only [List.cons_append, splitEvery, hx, if_true]
    rw [List.filter_cons]
    simp only [List.isEmpty_nil, Bool.not_true]
    exact ih (fun d hd => h d (List.mem_cons_of_mem _ hd)) m

theorem splitEvery_front {p : Char → Bool} :
    ∀ {t : List Char}, (∀ x ∈ t, p x = false) → ∀ b,
      splitEvery p (t ++ b) =
        (t ++ (splitEvery p b).headI) :: (splitEvery p b).tail := by
  intro t
  induction t with
  | nil =>
    intro _ b
    simp only [List.nil_append]
    cases hsb : splitEvery p b with
    | nil => exact absurd hsb (splitEvery_ne_nil p b)
    | cons hh tt => simp [hsb]
  | cons x t' ih =>
    intro h b
    have hx : p x = false := h x (List.mem_cons_self _ _)
    simp only [List.cons_append, splitEvery, hx, List.append_eq]
    rw [if_neg Bool.false_ne_true]
    rw [ih (fun y hy => h y (List.mem_cons_of_mem _ hy)) b]

theorem strtokF_nil (p : Char → Bool) : ∀ f, strtokF p f [] = [] := by
  intro f
  cases f <;> rfl

theorem strtokF_eq (p : Char → Bool) :
    ∀ (f : Nat) (l : List Char), l.length ≤ f →
      strtokF p f l = (splitEvery p l).filter (fun t => !t.isEmpty) := by
  intro f
  induction f with
  | zero =>
    intro l hl
    have hnil : l = [] := List.length_eq_zero.mp (Nat.le_zero.mp hl)
    subst hnil
    rfl
  | succ f ih =>
    intro l hl
    cases hdw : l.dropWhile p with
    | nil =>
      have hall : ∀ c ∈ l, p c = true := List.dropWhile_eq_nil_iff.mp hdw
      simp only [strtokF, hdw]
      exact (splitEvery_filter_all hall).symm
    | cons c rest =>
      simp only [strtokF, hdw]
      have hsplit : l = l.takeWhile p ++ (c :: rest) := by
        conv_lhs => rw [← List.takeWhile_append_dropWhile (p := p) (l := l)]
        rw [hdw]
      have hw : ∀ d ∈ l.takeWhile p, p d = true := fun d hd => List.mem_takeWhile_imp hd
      have hpc : p c = false := by
        have h5 := List.head?_dropWhile_not p l
        rw [hdw] at h5
        simpa using h5
      have hrest : rest.length + 1 ≤ l.length := by
        have h5 : (c :: rest).length ≤ l.length :=
          List.Sublist.length_le (hdw ▸ List.dropWhile_sublist (l := l) p)
        simpa using h5
      have ha : ∀ x ∈ c :: rest.takeWhile (fun d => !(p d)), p x = false := by
        intro x hx
        rcases List.mem_cons.mp hx with h5 | h5
        · subst h5; exact hpc
        · have h6 := List.mem_takeWhile_imp h5
          simpa using h6
      have hrs : (c :: rest) =
          (c :: rest.takeWhile (fun d => !(p d))) ++ rest.dropWhile (fun d => !(p d)) := by
        rw [List.cons_append, List.takeWhile_append_dropWhile]
      have hblen : (rest.dropWhile (fun d => !(p d))).length ≤ f := by
        have h5 := List.Sublist.length_le (List.dropWhile_sublist (l := rest) (fun d => !(p d)))
        omega
      conv_rhs => rw [hsplit]
      rw [splitEvery_ws_filter hw]
      conv_rhs => rw [hrs]
      rw [splitEvery_front ha]
      rw [ih (rest.dropWhile (fun d => !(p d))) hblen]
      cases hb : rest.dropWhile (fun d => !(p d)) with
      | nil =>
        simp [splitEvery]
      | cons d b' =>
        have hpd : p d = true := by
          have h5 := List.head?_dropWhile_not (fun d => !(p d)) rest
          rw [hb] at h5
          simpa using h5
        simp only [splitEvery, hpd, if_true]
        rw [List.filter_cons, List.filter_cons]
        simp

theorem strtok_all_eq (p : Char → Bool) (l : List Char) :
    strtok_all p l = (splitEvery p l).filter (fun t => !t.isEmpty) :=
  strtokF_eq p l.length l (Nat.le_refl _)

theorem trim_filter_eq :
    ∀ parts : List (List Char),
      (((parts.filter (fun t => !t.isEmpty)).map trimInplace).filter (fun t => !t.isEmpty)) =
        ((parts.map trimInplace).filter (fun t => !t.isEmpty)) := by
  intro parts
  induction parts with
  | nil => rfl
  | cons x xs ih =>
    rw [List.filter_cons, List.map_cons, List.filter_cons]
    by_cases hx : x = []
    · subst hx
      rw [if_neg (by decide), if_neg (by decide)]
      exact ih
    · have hq : (!x.isEmpty) = true := by
        cases x with
        | nil => exact absurd rfl hx
        | cons y ys => rfl
      rw [if_pos hq, List.map_cons, List.filter_cons]
      by_cases ht : (!(trimInplace x).isEmpty) = true
      · rw [if_pos ht, if_pos ht, ih]
      · rw [if_neg ht, if_neg ht, ih]

theorem runLines_ok_fatal :
    ∀ (lines : List (List Char)) (e : Env) (v : Nat),
      (runLines (fun _ => true) (fun _ => true) lines e v).fatal = none := by
  intro lines
  induction lines with
  | nil => intro e v; rfl
  | cons l rest ih =>
    intro e v
    cases hp : processLine l with
    | none =>
      simp only [runLines, hp]
      exact ih e v
    | some kv =>
      obtain ⟨k, raw⟩ := kv
      simp only [runLines, hp]
      exact ih _ _

theorem runLines_frame :
    ∀ (lines : List (List Char)) (pOk eOk : List Char → Bool) (e : Env) (v : Nat)
      (m : String), m ∉ procKeys lines →
      (runLines pOk eOk lines e v).env m = e m := by
  intro lines
  induction lines with
  | nil => intro pOk eOk e v m _; rfl
  | cons l rest ih =>
    intro pOk eOk e v m hm
    cases hp : processLine l with
    | none =>
      have hm2 : m ∉ procKeys rest := by
        simpa [procKeys, List.filterMap_cons, hp] using hm
      simp only [runLines, hp]
      exact ih pOk eOk e v m hm2
    | some kv =>
      obtain ⟨k, raw⟩ := kv
      have hpk : procKeys (l :: rest) = k :: procKeys rest := by
        simp [procKeys, List.filterMap_cons, hp]
      rw [hpk] at hm
      have hmk : m ≠ k := fun h => hm (h ▸ List.mem_cons_self _ _)
      have hm2 : m ∉ procKeys rest := fun h => hm (List.mem_cons_of_mem _ h)
      simp only [runLines, hp]
      by_cases h1 : pOk raw = true
      · rw [if_pos h1]
        by_cases h2 : eOk (parse_value raw) = true
        · rw [if_pos h2]
          rw [ih pOk eOk _ _ m hm2]
          simp [setEnv, hmk]
        · rw [if_neg h2]
      · rw [if_neg h1]

theorem collectLoop_nonneg {wOk : List Char → Bool} (hw : ∀ t, wOk t = true) :
    ∀ (inputs : List (List Char)) (added : Nat) (app : List (List Char)) (e : Env),
      0 ≤ (collectLoop wOk inputs added app e).1 := by
  intro inputs
  induction inputs with
  | nil =>
    intro added app e
    simp only [collectLoop]
    omega
  | cons line rest ih =>
    intro added app e
    simp only [collectLoop]
    by_cases ht : trimInplace line = []
    · rw [if_pos ht]
      omega
    · rw [if_neg ht]
      cases hs : splitAtEq (trimInplace line) with
      | none => exact ih added app e
      | some kv =>
        obtain ⟨k, v⟩ := kv
        show 0 ≤ (if trimInplace k = [] then collectLoop wOk rest added app e
          else if wOk (trimInplace line) = true then
            collectLoop wOk rest (added + 1) (app ++ [trimInplace line])
              (setEnv e (String.mk (trimInplace k)) (String.mk v))
          else (-1, app, e)).1
        by_cases hk : trimInplace k = []
        · rw [if_pos hk]
          exact ih added app e
        · rw [if_neg hk, if_pos (hw _)]
          exact ih _ _ _

theorem runLines_agree :
    ∀ (lines : List (List Char)) (K : List String) (e1 e2 : Env) (v1 v2 : Nat),
      linesOKb K lines = true →
      (∀ n, n ∉ K → e1 n = e2 n) →
      ∀ m, m ∈ procKeys lines →
        (runLines (fun _ => true) (fun _ => true) lines e1 v1).env m =
          (runLines (fun _ => true) (fun _ => true) lines e2 v2).env m := by
  intro lines
  induction lines with
  | nil =>
    intro K e1 e2 v1 v2 _ _ m hm
    simp [procKeys] at hm
  | cons l rest ih =>
    intro K e1 e2 v1 v2 hok hagree m hm
    unfold linesOKb at hok
    rw [List.all_cons] at hok
    obtain ⟨hl, hrest⟩ := Bool.and_eq_true_iff.mp hok
    have hokr : linesOKb K rest = true := hrest
    cases hp : processLine l with
    | none =>
      have hm2 : m ∈ procKeys rest := by
        simpa [procKeys, List.filterMap_cons, hp] using hm
      simp only [runLines, hp]
      exact ih K e1 e2 v1 v2 hokr hagree m hm2
    | some kv =>
      obtain ⟨k, raw⟩ := kv
      rw [hp] at hl
      obtain ⟨hkK, hrefs⟩ := Bool.and_eq_true_iff.mp hl
      have hvals : expand_vars e1 (parse_value raw) = expand_vars e2 (parse_value raw) := by
        apply expand_vars_ext
        intro n hn
        apply hagree
        intro hnK
        have hall := List.all_eq_true.mp hrefs n hn
        have hc : K.contains n = true := List.elem_iff.mpr hnK
        rw [hc] at hall
        simp at hall
      simp only [runLines, hp]
      show (runLines (fun _ => true) (fun _ => true) rest
          (setEnv e1 k (String.mk (expand_vars e1 (parse_value raw)))) (v1 + 1)).env m =
        (runLines (fun _ => true) (fun _ => true) rest
          (setEnv e2 k (String.mk (expand_vars e2 (parse_value raw)))) (v2 + 1)).env m
      rw [hvals]
      have hagree2 : ∀ n, n ∉ K →
          setEnv e1 k (String.mk (expand_vars e2 (parse_value raw))) n =
          setEnv e2 k (String.mk (expand_vars e2 (parse_value raw))) n := by
        intro n hn
        unfold setEnv
        by_cases hnk : n = k
        · simp [hnk]
        · simp only [if_neg hnk]
          exact hagree n hn
      by_cases hmr : m ∈ procKeys rest
      · exact ih K _ _ _ _ hokr hagree2 m hmr
      · have hmk : m = k := by
          have hpk : procKeys (l :: rest) = k :: procKeys rest := by
            simp [procKeys, List.filterMap_cons, hp]
          rw [hpk] at hm
          rcases List.mem_cons.mp hm with h5 | h5
          · exact h5
          · exact absurd h5 hmr
        subst hmk
        rw [runLines_frame rest _ _ _ _ m hmr, runLines_frame rest _ _ _ _ m hmr]
        simp [setEnv]

theorem string_ne_data {s : String} (h : s ≠ "") : s.data ≠ [] := by
  intro hd
  apply h
  cases s with
  | mk l =>
    have hl : l = [] := hd
    subst hl
    rfl

theorem load_noTty_env :
    ∀ (lines : List (List Char)) (ans : Option (List Char)) (inp : List (List Char))
      (pOk eOk : List Char → Bool) (oOk : Bool) (wOk : List Char → Bool) (e : Env),
      (load_dotenv (some lines) false ans inp pOk eOk oOk wOk e).env =
        (runLines pOk eOk lines e 0).env := by
  intro lines ans inp pOk eOk oOk wOk e
  simp only [load_dotenv, fileScan]
  cases hf : (runLines pOk eOk lines e 0).fatal with
  | some c => rfl
  | none => rw [if_neg (by simp)]

theorem load_allok_status :
    ∀ (file : Option (List (List Char))) (tty : Bool) (ans : Option (List Char))
      (inp : List (List Char)) (e : Env),
      (load_dotenv file tty ans inp (fun _ => true) (fun _ => true) true
        (fun _ => true) e).status = 0 := by
  intro file tty ans inp e
  have hf : (fileScan (fun _ => true) (fun _ => true) file e).fatal = none := by
    cases file with
    | none => rfl
    | some lines => exact runLines_ok_fatal lines e 0
  simp only [load_dotenv, hf]
  by_cases hc : (fileScan (fun _ => true) (fun _ => true) file e).varsSet = 0 ∧ tty = true
  · rw [if_pos hc]
    by_cases hy : isYesAnswer ans = true
    · rw [if_pos hy]
      have hr : 0 ≤ (interactive_create_entries true (fun _ => true) inp
          (fileScan (fun _ => true) (fun _ => true) file e).env).1 := by
        unfold interactive_create_entries
        rw [if_pos rfl]
        exact collectLoop_nonneg (fun _ => rfl) inp 0 [] _
      rw [if_neg (by omega)]
    · rw [if_neg hy]
  · rw [if_neg hc]

theorem get_env_spec_eq {e : Env} {key delim v : String}
    (hv : e key = some v) (hvne : v.data ≠ []) (hdne : delim.data ≠ []) :
    get_env e key delim =
      some ((specTokens delim v.data).map (fun t => some (String.mk t)) ++ [none],
        (specTokens delim v.data).length) := by
  simp only [get_env, hv]
  rw [if_neg hvne, if_neg hdne]
  have htoks : ((strtok_all (fun c => delim.data.contains c) v.data).map trimInplace).filter
      (fun t => !t.isEmpty) = specTokens delim v.data := by
    rw [strtok_all_eq, trim_filter_eq]
    rfl
  rw [htoks]

/-- C1: at the failing input, a collector line carrying leading and
trailing whitespace is accepted (counted once) but the line written to
the file is the trimmed copy, not the raw untrimmed line the user
typed, contradicting the claim that the raw line is appended verbatim. -/
theorem C1_appends_trimmed_not_raw :
    (interactive_create_entries true (fun _ => true) [" A=B ".data] emptyEnv).2.1 =
      ["A=B".data] ∧
    (interactive_create_entries true (fun _ => true) [" A=B ".data] emptyEnv).1 = 1 ∧
    "A=B".data ≠ " A=B ".data := by
  decide

/-- C2: expand is a single left-to-right pass: a dollar-brace reference
with a closing brace is replaced by the store's current value of the
name (empty when absent) and the substituted text is never re-scanned;
a dollar-brace with no closing brace before end-of-input is copied
through literally; expanding X bound to a value that itself contains a
reference yields that value verbatim without a second pass. -/
theorem C2_expand_single_pass (e : Env) (name r l : List Char)
    (h1 : '}' ∉ name) (h2 : '}' ∉ l) :
    expand_vars e ('$' :: '{' :: (name ++ '}' :: r)) =
      envGet e (String.mk name) ++ expand_vars e r ∧
    expand_vars e ('$' :: '{' :: l) = '$' :: '{' :: l ∧
    expand_vars (fun k => if k = "X" then some "${Y}" else none) "${X}".data = "${Y}".data ∧
    expand_vars (fun k => if k = "X" then some "/root" else none) "${X}/y".data =
      "/root/y".data ∧
    expand_vars emptyEnv "${MISSING}".data = "".data := by
  refine ⟨expand_vars_subst e h1 r, ?_, by decide, by decide, by decide⟩
  have h3 : '}' ∉ ('$' :: '{' :: l) := by
    intro hm
    rcases List.mem_cons.mp hm with h5 | h5
    · exact (by decide : ('}' : Char) ≠ '$') h5
    · rcases List.mem_cons.mp h5 with h6 | h6
      · exact (by decide : ('}' : Char) ≠ '{') h6
      · exact h2 h6
  exact expand_vars_no_close e h3

theorem C2_expand_single_pass_witness :
    ('}' ∉ "X".data) ∧ ('}' ∉ "ab".data) ∧
    (expand_vars (fun k => if k = "X" then some "/root" else none)
        ('$' :: '{' :: ("X".data ++ '}' :: "/y".data)) =
      envGet (fun k => if k = "X" then some "/root" else none) (String.mk "X".data) ++
        expand_vars (fun k => if k = "X" then some "/root" else none) "/y".data ∧
    expand_vars (fun k => if k = "X" then some "/root" else none)
        ('$' :: '{' :: "ab".data) = '$' :: '{' :: "ab".data ∧
    expand_vars (fun k => if k = "X" then some "${Y}" else none) "${X}".data = "${Y}".data ∧
    expand_vars (fun k => if k = "X" then some "/root" else none) "${X}/y".data =
      "/root/y".data ∧
    expand_vars emptyEnv "${MISSING}".data = "".data) :=
  ⟨by decide, by decide,
    C2_expand_single_pass (fun k => if k = "X" then some "/root" else none)
      "X".data "/y".data "ab".data (by decide) (by decide)⟩

/-- C3: for a raw value whose first non-whitespace character is a quote,
parse returns the quoted-scan of the body: the accumulation up to the
next unescaped quote (capped at the internal ceiling of 4095 output
characters), with each backslash-character pair replaced by the bare
character, hash preserved, and an unterminated quote yielding the
truncated literal rather than an error. -/
theorem C3_quoted_parse (raw body : List Char) (q : Char)
    (hd : raw.dropWhile isSpaceC = q :: body) (hq : q = '"' ∨ q = '\'') :
    parse_value raw = (quotedSpec q body).take 4095 ∧
    parse_value "\"a\\\"b\"".data = "a\"b".data ∧
    parse_value "\"a#b\"".data = "a#b".data ∧
    parse_value "\"abc".data = "abc".data :=
  ⟨parse_value_quoted hd hq, by decide, by decide, by decide⟩

theorem C3_quoted_parse_witness :
    ("\"hi\"".data.dropWhile isSpaceC = '"' :: "hi\"".data) ∧
    (('"' : Char) = '"' ∨ ('"' : Char) = '\'') ∧
    (parse_value "\"hi\"".data = (quotedSpec '"' "hi\"".data).take 4095 ∧
    parse_value "\"a\\\"b\"".data = "a\"b".data ∧
    parse_value "\"a#b\"".data = "a#b".data ∧
    parse_value "\"abc".data = "abc".data) :=
  ⟨by decide, Or.inl rfl,
    C3_quoted_parse "\"hi\"".data "hi\"".data '"' (by decide) (Or.inl rfl)⟩

/-- C4: for a raw value whose first non-whitespace character is not a
quote (and within the length ceiling), parse copies characters up to
the first hash or end of input and trims whitespace at both ends; with
no hash at all the result is the trimmed value unchanged, and the
inline-comment example evaluates as the claim states. -/
theorem C4_unquoted_parse (raw : List Char)
    (hlen : raw.length ≤ 4095)
    (h1 : (raw.dropWhile isSpaceC).head? ≠ some '"')
    (h2 : (raw.dropWhile isSpaceC).head? ≠ some '\'') :
    parse_value raw = ltrimC (rtrimC (raw.takeWhile (fun c => !(c == '#')))) ∧
    ('#' ∉ raw → parse_value raw = ltrimC (rtrimC raw)) ∧
    parse_value "a # b".data = "a".data := by
  refine ⟨parse_value_unquoted hlen h1 h2, ?_, by decide⟩
  intro hh
  rw [parse_value_unquoted hlen h1 h2]
  rw [List.takeWhile_eq_self_iff.mpr (fun c hc => by
    have h5 : c ≠ '#' := fun he => hh (he ▸ hc)
    simp [h5])]

theorem C4_unquoted_parse_witness :
    (" hello world ".data.length ≤ 4095) ∧
    ((" hello world ".data.dropWhile isSpaceC).head? ≠ some '"') ∧
    ((" hello world ".data.dropWhile isSpaceC).head? ≠ some '\'') ∧
    (parse_value " hello world ".data =
      ltrimC (rtrimC (" hello world ".data.takeWhile (fun c => !(c == '#')))) ∧
    ('#' ∉ " hello world ".data →
      parse_value " hello world ".data = ltrimC (rtrimC " hello world ".data)) ∧
    parse_value "a # b".data = "a".data) :=
  ⟨by decide, by decide, by decide,
    C4_unquoted_parse " hello world ".data (by decide) (by decide) (by decide)⟩

/-- C5: for a stored non-empty value and a non-empty delimiter string,
get_env returns exactly the spec-side pipeline: the value partitioned
on every occurrence of any delimiter character, each partition trimmed
independently, empty-after-trim partitions dropped, surviving tokens in
order together with the matching count; the spec's example splits as
claimed. -/
theorem C5_split_tokens (e : Env) (key delim v : String)
    (hv : e key = some v) (hvne : v ≠ "") (hdne : delim ≠ "") :
    get_env e key delim =
      some ((specTokens delim v.data).map (fun t => some (String.mk t)) ++ [none],
        (specTokens delim v.data).length) ∧
    specTokens "," "a, b ,c,, ".data = ["a".data, "b".data, "c".data] :=
  ⟨get_env_spec_eq hv (string_ne_data hvne) (string_ne_data hdne), by decide⟩

theorem C5_split_tokens_witness :
    ((fun k => if k = "K" then some "a, b ,c,, " else none) "K" = some "a, b ,c,, ") ∧
    ("a, b ,c,, " ≠ "") ∧ ("," ≠ "") ∧
    (get_env (fun k => if k = "K" then some "a, b ,c,, " else none) "K" "," =
      some ((specTokens "," "a, b ,c,, ".data).map (fun t => some (String.mk t)) ++ [none],
        (specTokens "," "a, b ,c,, ".data).length) ∧
    specTokens "," "a, b ,c,, ".data = ["a".data, "b".data, "c".data]) :=
  ⟨by decide, by decide, by decide,
    C5_split_tokens (fun k => if k = "K" then some "a, b ,c,, " else none)
      "K" "," "a, b ,c,, " (by decide) (by decide) (by decide)⟩

/-- C9: every array returned by get_env with reported count n carries
the terminating null pointer at index n (and has length n + 1), in the
general splitting case as well as the empty-delimiter singleton case. -/
theorem C9_null_terminated (e : Env) (key delim : String)
    (arr : List (Option String)) (n : Nat)
    (h : get_env e key delim = some (arr, n)) :
    arr.get? n = some none ∧ arr.length = n + 1 := by
  unfold get_env at h
  cases hv : e key with
  | none =>
    simp only [hv] at h
    exact absurd h (by simp)
  | some v =>
    simp only [hv] at h
    by_cases h1 : v.data = []
    · rw [if_pos h1] at h
      simp at h
    · rw [if_neg h1] at h
      by_cases h2 : delim.data = []
      · rw [if_pos h2] at h
        simp only [Option.some.injEq, Prod.mk.injEq] at h
        obtain ⟨h3, h4⟩ := h
        subst h3
        subst h4
        exact ⟨rfl, rfl⟩
      · rw [if_neg h2] at h
        simp only [Option.some.injEq, Prod.mk.injEq] at h
        obtain ⟨h3, h4⟩ := h
        subst h3
        subst h4
        constructor
        · have h5 := List.getElem?_concat_length
            ((((strtok_all (fun c => delim.data.contains c) v.data).map trimInplace).filter
              (fun t => !t.isEmpty)).map (fun t => some (String.mk t))) (none : Option String)
          rw [List.length_map] at h5
          rw [List.get?_eq_getElem?]
          exact h5
        · simp

theorem C9_null_terminated_witness :
    (get_env (fun k => if k = "K" then some "a,b" else none) "K" "," =
      some ([some "a", some "b", none], 2)) ∧
    (([some "a", some "b", none] : List (Option String)).get? 2 = some none ∧
      ([some "a", some "b", none] : List (Option String)).length = 2 + 1) :=
  ⟨by decide,
    C9_null_terminated (fun k => if k = "K" then some "a,b" else none) "K" ","
      [some "a", some "b", none] 2 (by decide)⟩

/-- C10: when the variable is present with a non-empty value but every
partition trims to the empty string, get_env returns the non-null
array holding only the terminating null pointer with reported count 0,
whereas an unset variable yields the null absent sentinel. -/
theorem C10_all_empty_tokens (e : Env) (key delim v : String) :
    (e key = some v → v ≠ "" → delim ≠ "" → specTokens delim v.data = [] →
      get_env e key delim = some ([none], 0)) ∧
    (e key = none → get_env e key delim = none) := by
  constructor
  · intro hv hvne hdne htoks
    rw [get_env_spec_eq hv (string_ne_data hvne) (string_ne_data hdne), htoks]
    rfl
  · intro hv
    unfold get_env
    simp [hv]

theorem C10_all_empty_tokens_witness :
    ((fun k => if k = "K" then some "  ,  " else none) "K" = some "  ,  ") ∧
    ("  ,  " ≠ "") ∧ ("," ≠ "") ∧ (specTokens "," "  ,  ".data = []) ∧
    (get_env (fun k => if k = "K" then some "  ,  " else none) "K" "," =
      some ([none], 0)) ∧
    (get_env emptyEnv "K" "," = none) :=
  ⟨by decide, by decide, by decide, by decide,
    (C10_all_empty_tokens (fun k => if k = "K" then some "  ,  " else none)
      "K" "," "  ,  ").1 (by decide) (by decide) (by decide) (by decide),
    (C10_all_empty_tokens emptyEnv "K" "," "x").2 rfl⟩

/-- C6: with every allocation and I/O oracle answering success, load
returns status 0 on every run, whatever the file contents, terminal
state and interactive inputs (missing file, lines without an equals
sign, empty keys, and zero entries included); when the value-parse
allocation fails the status is -2, when the expansion allocation fails
it is -3, and when the interactive append I/O fails it is -4 --- three
distinct negative codes. -/
theorem C6_status_codes :
    (∀ (file : Option (List (List Char))) (tty : Bool) (answer : Option (List Char))
       (inputs : List (List Char)) (e : Env),
       (load_dotenv file tty answer inputs (fun _ => true) (fun _ => true) true
         (fun _ => true) e).status = 0) ∧
    (load_dotenv (some ["A=1".data]) false none [] (fun _ => false) (fun _ => true) true
      (fun _ => true) emptyEnv).status = -2 ∧
    (load_dotenv (some ["A=1".data]) false none [] (fun _ => true) (fun _ => false) true
      (fun _ => true) emptyEnv).status = -3 ∧
    (load_dotenv none true (some "y".data) ["B=2".data] (fun _ => true) (fun _ => true)
      false (fun _ => true) emptyEnv).status = -4 :=
  ⟨load_allok_status, by decide, by decide, by decide⟩

/-- C7 counterexample: with an empty file (zero entries set) and an
interactive terminal, answering the confirmation prompt with n means
the Interactive Collector never runs, refuting the claim that control
passes to the collector whenever zero entries were set and stdin is a
terminal. -/
theorem C7_counterexample :
    (load_dotenv (some []) true (some "n".data) [] (fun _ => true) (fun _ => true) true
      (fun _ => true) emptyEnv).fileVars = 0 ∧
    (load_dotenv (some []) true (some "n".data) [] (fun _ => true) (fun _ => true) true
      (fun _ => true) emptyEnv).prompted = true ∧
    (load_dotenv (some []) true (some "n".data) [] (fun _ => true) (fun _ => true) true
      (fun _ => true) emptyEnv).collectorRan = false := by
  decide

/-- C7 (amended): after the file phase ends without a fatal error with
zero entries set, on an interactive terminal, and only when the user
confirms the prompt with y or Y, control passes to the Interactive
Collector; when the collector's returned count is non-negative the load
succeeds and that count becomes the final entriesSet; with
non-interactive stdin no prompt is attempted and the collector never
runs. -/
theorem C7_collector_gate
    (file : Option (List (List Char))) (tty : Bool) (answer : Option (List Char))
    (inputs : List (List Char)) (pOk eOk : List Char → Bool) (oOk : Bool)
    (wOk : List Char → Bool) (e : Env) :
    ((fileScan pOk eOk file e).fatal = none →
     (fileScan pOk eOk file e).varsSet = 0 →
     tty = true →
     isYesAnswer answer = true →
     (load_dotenv file tty answer inputs pOk eOk oOk wOk e).collectorRan = true ∧
     (0 ≤ (interactive_create_entries oOk wOk inputs (fileScan pOk eOk file e).env).1 →
       (load_dotenv file tty answer inputs pOk eOk oOk wOk e).status = 0 ∧
       (load_dotenv file tty answer inputs pOk eOk oOk wOk e).entriesSet =
         (interactive_create_entries oOk wOk inputs (fileScan pOk eOk file e).env).1.toNat)) ∧
    (tty = false →
      (load_dotenv file tty answer inputs pOk eOk oOk wOk e).prompted = false ∧
      (load_dotenv file tty answer inputs pOk eOk oOk wOk e).collectorRan = false) := by
  constructor
  · intro hf hv htty hyes
    subst htty
    simp only [load_dotenv, hf]
    rw [if_pos ⟨hv, trivial⟩, if_pos hyes]
    constructor
    · by_cases hneg : (interactive_create_entries oOk wOk inputs
          (fileScan pOk eOk file e).env).1 < 0
      · rw [if_pos hneg]
      · rw [if_neg hneg]
    · intro hnn
      rw [if_neg (by omega)]
      exact ⟨rfl, rfl⟩
  · intro htty
    subst htty
    simp only [load_dotenv]
    cases hf : (fileScan pOk eOk file e).fatal with
    | some c => exact ⟨rfl, rfl⟩
    | none =>
      rw [if_neg (by simp)]
      exact ⟨rfl, rfl⟩

theorem C7_collector_gate_witness :
    ((fileScan (fun _ => true) (fun _ => true) none emptyEnv).fatal = none) ∧
    ((fileScan (fun _ => true) (fun _ => true) none emptyEnv).varsSet = 0) ∧
    ((load_dotenv none true (some "y".data) ["A=1".data] (fun _ => true) (fun _ => true)
      true (fun _ => true) emptyEnv).collectorRan = true ∧
    (load_dotenv none true (some "y".data) ["A=1".data] (fun _ => true) (fun _ => true)
      true (fun _ => true) emptyEnv).status = 0 ∧
    (load_dotenv none true (some "y".data) ["A=1".data] (fun _ => true) (fun _ => true)
      true (fun _ => true) emptyEnv).entriesSet =
      (interactive_create_entries true (fun _ => true) ["A=1".data]
        (fileScan (fun _ => true) (fun _ => true) none emptyEnv).env).1.toNat) := by
  have h := C7_collector_gate none true (some "y".data) ["A=1".data]
    (fun _ => true) (fun _ => true) true (fun _ => true) emptyEnv
  obtain ⟨h1, _⟩ := h
  obtain ⟨hc, hs⟩ := h1 rfl rfl rfl (by decide)
  exact ⟨rfl, rfl, hc, (hs (by decide)).1, (hs (by decide)).2⟩

/-- C8 counterexample: for the file holding the single line A=${A}x
(a value referencing the key the file itself sets), loading it twice
from the empty store yields a different final store than loading it
once: the key A holds x after one load and xx after two. -/
theorem C8_counterexample :
    ¬ ((load_dotenv (some ["A=${A}x".data]) false none [] (fun _ => true) (fun _ => true)
        true (fun _ => true)
        ((load_dotenv (some ["A=${A}x".data]) false none [] (fun _ => true) (fun _ => true)
          true (fun _ => true) emptyEnv).env)).env "A" =
      (load_dotenv (some ["A=${A}x".data]) false none [] (fun _ => true) (fun _ => true)
        true (fun _ => true) emptyEnv).env "A") := by
  decide

/-- C8 (amended): for every well-formed file in which no value
references, through a dollar-brace expansion, a key that the file
itself sets, loading the file twice in a row (non-interactively, with
all allocations succeeding) leaves the variable store with exactly the
same contents as loading it once; the last set per key wins,
deterministically. -/
theorem C8_idempotent_no_self_refs
    (lines : List (List Char)) (ans : Option (List Char)) (inp : List (List Char))
    (e : Env) (m : String)
    (hok : linesOKb (procKeys lines) lines = true) :
    (load_dotenv (some lines) false ans inp (fun _ => true) (fun _ => true) true
      (fun _ => true)
      ((load_dotenv (some lines) false ans inp (fun _ => true) (fun _ => true) true
        (fun _ => true) e).env)).env m =
    (load_dotenv (some lines) false ans inp (fun _ => true) (fun _ => true) true
      (fun _ => true) e).env m := by
  simp only [load_noTty_env]
  by_cases hm : m ∈ procKeys lines
  · exact runLines_agree lines (procKeys lines) _ e 0 0 hok
      (fun n hn => runLines_frame lines _ _ e 0 n hn) m hm
  · rw [runLines_frame lines _ _ _ 0 m hm, runLines_frame lines _ _ _ 0 m hm]

theorem C8_idempotent_no_self_refs_witness :
    (linesOKb (procKeys ["A=${B}/y".data]) ["A=${B}/y".data] = true) ∧
    ((load_dotenv (some ["A=${B}/y".data]) false none [] (fun _ => true) (fun _ => true)
        true (fun _ => true)
        ((load_dotenv (some ["A=${B}/y".data]) false none [] (fun _ => true) (fun _ => true)
          true (fun _ => true) emptyEnv).env)).env "A" =
      (load_dotenv (some ["A=${B}/y".data]) false none [] (fun _ => true) (fun _ => true)
        true (fun _ => true) emptyEnv).env "A") :=
  ⟨by decide,
    C8_idempotent_no_self_refs ["A=${B}/y".data] none [] emptyEnv "A" (by decide)⟩
